import Mathlib

/-!
  Verification of the graph engine in `brainstorm/architecture.py`:
  schema/structural validation of architecture descriptions, canonical
  topological ordering, reverse-edge derivation ("extension"), and
  instantiation orchestration.

  An architecture description is a Python dict mapping layer names to layer
  records.  A dict with string keys is embedded as an association list
  `List (String × LayerRecord)` whose key list is duplicate-free (dict keys
  are unique); iteration order of the list models dict insertion order.
  A Python set of strings is embedded as `Finset String`.
-/

namespace Brainstorm

/-- Free-form configuration values carried in the non-reserved keys of a
layer record.  The engine never inspects them, it only copies them around,
so a small closed universe of values suffices for the embedding. -/
inductive ConfigValue where
  | int : Int → ConfigValue
  | str : String → ConfigValue
  | flag : Bool → ConfigValue
deriving DecidableEq, Inhabited

/-- One entry of an architecture description (`architecture[name]` in the
source).  The schema fields checked by `validate_architecture` (a string
`@type` and a set-valued `sink_layers`) are fields of the structure; the
optional `size` models `layer.get('size')`; all remaining non-reserved
dict keys are collected in `kwargs`. -/
structure LayerRecord where
  atType : String
  size : Option Int
  sink_layers : Finset String
  kwargs : List (String × ConfigValue)
deriving DecidableEq, Inhabited

/-- An architecture description: a Python dict from layer names to layer
records, embedded as an association list in insertion order. -/
abbrev Arch := List (String × LayerRecord)

/-- Python dict lookup `d[k]` / `d.get(k)`, as an association-list lookup
returning the first binding of the key. -/
def dictGet {β : Type} : List (String × β) → String → Option β
  | [], _ => none
  | (k, v) :: rest, n => if k = n then some v else dictGet rest n

/-- `architecture.keys()` in dict iteration order. -/
def archKeys (arch : Arch) : List String := arch.map Prod.fst

/-- `architecture[n]['sink_layers']`, defaulting to the empty set when the
name is absent (the source only applies it to present keys). -/
def sinksOf (arch : Arch) (n : String) : Finset String :=
  ((dictGet arch n).map LayerRecord.sink_layers).getD ∅

/-- Modelled from the spec: the regular expression `PYTHON_IDENTIFIER` lives
in `brainstorm/utils.py`, which is not among the sources; the spec gives the
identifier-safe pattern as `[A-Za-z_][A-Za-z0-9_]*` (a letter or underscore
followed by letters, digits or underscores). -/
def pythonIdentifier (s : String) : Bool :=
  match s.toList with
  | [] => false
  | c :: cs => (c.isAlpha || c == '_') && cs.all (fun d => d.isAlphanum || d == '_')

/-- `validate_architecture` from the source, as the predicate "returns
without raising".  The Python function runs a sequence of `assert`s and
wraps any `AssertionError` in `InvalidArchitectureError`; `true` models a
silent return and `false` models the raise.  The schema assertions (names
are strings, `@type` is a string, `sink_layers` is a set) hold by the types
of the embedding.  The checks appear in source order:
  no layer named `default`; every name matches `PYTHON_IDENTIFIER`; every
  sink name is a key; the key `InputLayer` exists and is typed
  `InputLayer`; exactly one record is typed `InputLayer`; no record lists
  `InputLayer` among its sinks; exactly one record has no sinks. -/
def validate_architecture (arch : Arch) : Bool :=
  decide ("default" ∉ archKeys arch) &&
  (archKeys arch).all (fun n => pythonIdentifier n) &&
  arch.all (fun nl => decide (∀ s ∈ nl.2.sink_layers, s ∈ archKeys arch)) &&
  (match dictGet arch "InputLayer" with
   | some r => decide (r.atType = "InputLayer")
   | none => false) &&
  decide ((arch.filter (fun nl => decide (nl.2.atType = "InputLayer"))).length = 1) &&
  decide ((arch.filter (fun nl => decide ("InputLayer" ∈ nl.2.sink_layers))).length = 0) &&
  decide ((arch.filter (fun nl => decide (nl.2.sink_layers = ∅))).length = 1)

/-- Code-point lexicographic "less or equal" on character lists: Python's
string comparison, used by `sorted`.  (Defined by structural recursion so
that concrete runs of the ordering algorithm evaluate inside the kernel.) -/
def charListLe : List Char → List Char → Bool
  | [], _ => true
  | _ :: _, [] => false
  | c :: cs, d :: ds => if c = d then charListLe cs ds else decide (c < d)

/-- Python's `<=` on strings: code-point lexicographic order. -/
def strLe (a b : String) : Bool := charListLe a.data b.data

/-- One round of the `while True` loop of `get_canonical_layer_order`:
the layers not yet ordered whose `sink_layers` are all already ordered
(`set(architecture[n]['sink_layers']) <= already_ordered_layers` where
`already_ordered_layers = set(layer_order)`). -/
def newLayers (arch : Arch) (layer_order : List String) : List String :=
  ((archKeys arch).filter (fun l => decide (l ∉ layer_order))).filter
    (fun n => decide (sinksOf arch n ⊆ layer_order.toFinset))

/-- The `while True` loop of `get_canonical_layer_order`.  Each round either
breaks (no new layers) or appends the new layers sorted by descending name
(`sorted(new_layers, reverse=True)`).  Every continuing round adds at least
one key not ordered before, so `fuel = ` number of keys makes the recursion
exhaust only in states where the source loop would break immediately. -/
def canonLoop (arch : Arch) : Nat → List String → List String
  | 0, layer_order => layer_order
  | fuel + 1, layer_order =>
    let new_layers := newLayers arch layer_order
    if new_layers = [] then layer_order
    else canonLoop arch fuel
      (layer_order ++ List.insertionSort (fun a b => strLe b a = true) new_layers)

/-- `get_canonical_layer_order` from the source.  The final
`assert not remaining_layers, "couldn't reach %s" % remaining_layers` is
modelled by returning the whole set of unplaced layer names as the error
value; success returns `list(reversed(layer_order))`. -/
def get_canonical_layer_order (arch : Arch) : Except (Finset String) (List String) :=
  let layer_order := canonLoop arch (archKeys arch).length []
  let remaining_layers := (archKeys arch).toFinset \ layer_order.toFinset
  if remaining_layers = ∅ then .ok layer_order.reverse else .error remaining_layers

/-- The extended record built per layer: `@type`, `size` (via
`layer.get('size')`), a copy of `sink_layers`, the free-form `kwargs`
(all record items whose key is not in `kwarg_ignore`), and an initially
empty `source_layers` list. -/
structure ExtLayerRecord where
  atType : String
  size : Option Int
  sink_layers : Finset String
  kwargs : List (String × ConfigValue)
  source_layers : List String
deriving DecidableEq, Inhabited

/-- The reserved keys `{'@type', 'size', 'sink_layers', 'source_layers',
'kwargs'}` excluded from `kwargs` by `get_extended_architecture`.  In the
embedding the first three are structure fields, so only the free-form keys
can collide with the reserved set. -/
def kwarg_ignore : List String :=
  ["@type", "size", "sink_layers", "source_layers", "kwargs"]

/-- The first loop body of `get_extended_architecture`: the extended record
for one layer, with `source_layers` still empty. -/
def mkExtRecord (l : LayerRecord) : ExtLayerRecord :=
  { atType := l.atType
    size := l.size
    sink_layers := l.sink_layers
    kwargs := l.kwargs.filter (fun kv => decide (kv.1 ∉ kwarg_ignore))
    source_layers := [] }

/-- One step of the second loop of `get_extended_architecture`, for the
entry `nl = (n, l)`: every target named in `l['sink_layers']` gets `n`
appended to its `source_layers`.  Appends to distinct targets commute and
a set names each target at most once, so iterating the members of the
sink set in any order yields this update. -/
def appendSourceStep (ext : List (String × ExtLayerRecord))
    (nl : String × ExtLayerRecord) : List (String × ExtLayerRecord) :=
  ext.map (fun tr =>
    if tr.1 ∈ nl.2.sink_layers then
      (tr.1, { tr.2 with source_layers := tr.2.source_layers ++ [nl.1] })
    else tr)

/-- The second loop of `get_extended_architecture`
(`for n, l in extended_architecture.items(): for target_name in
l['sink_layers']: ... .append(n)`).  The sink sets read during the loop are
never modified by it, so the iteration reads them from the initial list. -/
def addSourceLayers (base : List (String × ExtLayerRecord)) :
    List (String × ExtLayerRecord) :=
  base.foldl appendSourceStep base

/-- `get_extended_architecture` from the source: validate, compute the
canonical layer order, build the extended records in that order (the
`OrderedDict` iteration order is the list order), then materialize the
reverse edges.  A `None` result models the exceptions propagated from
validation (`InvalidArchitectureError`) or ordering (the unreachable-layers
assertion). -/
def get_extended_architecture (arch : Arch) :
    Option (List (String × ExtLayerRecord)) :=
  if validate_architecture arch = false then none
  else
    match get_canonical_layer_order arch with
    | .error _ => none
    | .ok layer_order =>
        some (addSourceLayers (layer_order.map (fun name =>
          (name, mkExtRecord ((dictGet arch name).getD default)))))

/-- `sum(layers[l_name].out_size for l_name in layer['source_layers'])`,
failing (like the Python `layers[l_name]` key access) when a source has not
been instantiated. -/
def sumSourceSizes {α : Type} (out_size : α → Nat)
    (layers : List (String × α)) : List String → Option Nat
  | [] => some 0
  | s :: rest =>
    match dictGet layers s with
    | none => none
    | some inst => (sumSourceSizes out_size layers rest).map (out_size inst + ·)

/-- The loop of `instantiate_layers_from_architecture`: walk the extended
records in order, compute `in_size`, construct
`LayerClass(layer['size'], in_size, layer['kwargs'])` and append it to the
ordered result.  `layerClass ty` models
`get_layer_class_from_typename(layer['@type'])` applied to its three
construction arguments. -/
def instLoop {α : Type}
    (layerClass : String → Option Int → Nat → List (String × ConfigValue) → α)
    (out_size : α → Nat) :
    List (String × ExtLayerRecord) → List (String × α) → Option (List (String × α))
  | [], layers => some layers
  | (name, l) :: rest, layers =>
    match sumSourceSizes out_size layers l.source_layers with
    | none => none
    | some in_size =>
        instLoop layerClass out_size rest
          (layers ++ [(name, layerClass l.atType l.size in_size l.kwargs)])

/-- `instantiate_layers_from_architecture` from the source, parameterized by
the external registry (`get_layer_class_from_typename`, out of scope per the
spec) seen only through the construction function `layerClass` and the
`out_size` accessor of instantiated layers. -/
def instantiate_layers_from_architecture {α : Type}
    (layerClass : String → Option Int → Nat → List (String × ConfigValue) → α)
    (out_size : α → Nat) (arch : Arch) : Option (List (String × α)) :=
  match get_extended_architecture arch with
  | none => none
  | some ext => instLoop layerClass out_size ext []

section Examples

/-- The three-layer example description of the spec:
`InputLayer(size 10) → H(size 5) → Out(size 1)`. -/
def exampleChain : Arch :=
  [("InputLayer", { atType := "InputLayer", size := some 10,
                    sink_layers := {"H"}, kwargs := [] }),
   ("H", { atType := "FooLayer", size := some 5,
           sink_layers := {"Out"}, kwargs := [] }),
   ("Out", { atType := "FooLayer", size := some 1,
             sink_layers := ∅, kwargs := [] })]

/-- A validator-accepted description with a layer (`Apple`) that is not
reachable from `InputLayer`: both feed the single output.  The validator
leaves connectivity unchecked (`TODO: check if connected`). -/
def appleArch : Arch :=
  [("InputLayer", { atType := "InputLayer", size := some 10,
                    sink_layers := {"Out"}, kwargs := [] }),
   ("Apple", { atType := "FooLayer", size := some 5,
               sink_layers := {"Out"}, kwargs := [] }),
   ("Out", { atType := "FooLayer", size := some 1,
             sink_layers := ∅, kwargs := [] })]

/-- The two-layer cycle `A → B, B → A` used to exercise the
unreachable-layers failure of the ordering step. -/
def cycleArch : Arch :=
  [("A", { atType := "FooLayer", size := some 2,
           sink_layers := {"B"}, kwargs := [] }),
   ("B", { atType := "FooLayer", size := some 3,
           sink_layers := {"A"}, kwargs := [] })]

/-- A validator-accepted description in which layer `Loop` lists itself
among its sinks; validation does not inspect self-edges
(`TODO: check for cycles`). -/
def selfLoopArch : Arch :=
  [("InputLayer", { atType := "InputLayer", size := some 4,
                    sink_layers := {"Loop"}, kwargs := [] }),
   ("Loop", { atType := "FooLayer", size := some 6,
              sink_layers := {"Loop", "Out"}, kwargs := [] }),
   ("Out", { atType := "FooLayer", size := some 1,
             sink_layers := ∅, kwargs := [] })]

/-- A description whose only flaw is the layer name `1bad`, which starts
with a digit and so fails the `PYTHON_IDENTIFIER` check. -/
def badNameArch : Arch :=
  [("InputLayer", { atType := "InputLayer", size := some 7,
                    sink_layers := {"1bad"}, kwargs := [] }),
   ("1bad", { atType := "FooLayer", size := some 2,
              sink_layers := ∅, kwargs := [] })]

end Examples

instance {ε α : Type} [DecidableEq ε] [DecidableEq α] :
    DecidableEq (Except ε α) := fun a b =>
  match a, b with
  | .error e₁, .error e₂ =>
    if h : e₁ = e₂ then isTrue (by rw [h])
    else isFalse (by intro hc; cases hc; exact h rfl)
  | .error _, .ok _ => isFalse (by intro hc; cases hc)
  | .ok _, .error _ => isFalse (by intro hc; cases hc)
  | .ok a₁, .ok a₂ =>
    if h : a₁ = a₂ then isTrue (by rw [h])
    else isFalse (by intro hc; cases hc; exact h rfl)

/-! ### Association-list (dict) lemmas -/

theorem dictGet_mem {β : Type} {d : List (String × β)} {k : String} {v : β}
    (h : dictGet d k = some v) : (k, v) ∈ d := by
  induction d with
  | nil => simp [dictGet] at h
  | cons hd tl ih =>
    obtain ⟨k', v'⟩ := hd
    by_cases hk : k' = k
    · subst hk
      simp [dictGet] at h
      simp [h]
    · simp [dictGet, hk] at h
      exact List.mem_cons_of_mem _ (ih h)

theorem mem_dictGet {β : Type} {d : List (String × β)} {k : String} {v : β}
    (hnd : (d.map Prod.fst).Nodup) (h : (k, v) ∈ d) : dictGet d k = some v := by
  induction d with
  | nil => simp at h
  | cons hd tl ih =>
    obtain ⟨k', v'⟩ := hd
    simp only [List.map_cons, List.nodup_cons] at hnd
    rcases List.mem_cons.1 h with h1 | h1
    · obtain ⟨rfl, rfl⟩ := Prod.mk.injEq .. ▸ h1
      simp [dictGet]
    · have hk : k' ≠ k := by
        rintro rfl
        exact hnd.1 (List.mem_map.2 ⟨(k', v), h1, rfl⟩)
      simp [dictGet, hk]
      exact ih hnd.2 h1

theorem dictGet_eq_none {β : Type} {d : List (String × β)} {k : String} :
    dictGet d k = none ↔ k ∉ d.map Prod.fst := by
  induction d with
  | nil => simp [dictGet]
  | cons hd tl ih =>
    obtain ⟨k', v'⟩ := hd
    by_cases hk : k' = k
    · subst hk
      simp [dictGet]
    · simp [dictGet, hk, ih, Ne.symm hk]

theorem dictGet_isSome_of_mem {β : Type} {d : List (String × β)} {k : String}
    (h : k ∈ d.map Prod.fst) : ∃ v, dictGet d k = some v := by
  cases hv : dictGet d k with
  | none => exact absurd (dictGet_eq_none.1 hv) (not_not.2 h)
  | some v => exact ⟨v, rfl⟩

theorem dictGet_append_left {β : Type} {d₁ d₂ : List (String × β)} {k : String}
    (h : k ∈ d₁.map Prod.fst) : dictGet (d₁ ++ d₂) k = dictGet d₁ k := by
  induction d₁ with
  | nil => simp at h
  | cons hd tl ih =>
    obtain ⟨k', v'⟩ := hd
    by_cases hk : k' = k
    · simp [dictGet, hk]
    · simp only [List.map_cons, List.mem_cons] at h
      rcases h with h | h


      · exact absurd h.symm hk
      · simp [dictGet, hk, ih h]

theorem dictGet_append_right {β : Type} {d₁ d₂ : List (String × β)} {k : String}
    (h : k ∉ d₁.map Prod.fst) : dictGet (d₁ ++ d₂) k = dictGet d₂ k := by
  induction d₁ with
  | nil => simp
  | cons hd tl ih =>
    obtain ⟨k', v'⟩ := hd
    simp only [List.map_cons, List.mem_cons, not_or] at h
    simp [dictGet, Ne.symm h.1, ih h.2]

theorem mem_archKeys_of_mem {arch : Arch} {nl : String × LayerRecord}
    (h : nl ∈ arch) : nl.1 ∈ archKeys arch :=
  List.mem_map.2 ⟨nl, h, rfl⟩

theorem sinksOf_eq_some {arch : Arch} {n : String} {r : LayerRecord}
    (h : dictGet arch n = some r) : sinksOf arch n = r.sink_layers := by
  simp [sinksOf, h]

theorem sinksOf_eq_getD (arch : Arch) (n : String) :
    sinksOf arch n = ((dictGet arch n).getD default).sink_layers := by
  cases h : dictGet arch n with
  | none =>
    simp [sinksOf, h]
    rfl
  | some r => simp [sinksOf, h]

theorem mem_keys_of_mem_sinksOf {arch : Arch} {n x : String}
    (h : x ∈ sinksOf arch n) : n ∈ archKeys arch := by
  cases hv : dictGet arch n with
  | none => simp [sinksOf, hv] at h
  | some r =>
    exact mem_archKeys_of_mem (dictGet_mem hv)

/-! ### Unfolding the validator -/

theorem validate_true_iff (arch : Arch) : validate_architecture arch = true ↔
    ("default" ∉ archKeys arch) ∧
    (∀ n ∈ archKeys arch, pythonIdentifier n = true) ∧
    (∀ nl ∈ arch, ∀ s ∈ nl.2.sink_layers, s ∈ archKeys arch) ∧
    (∃ r, dictGet arch "InputLayer" = some r ∧ r.atType = "InputLayer") ∧
    ((arch.filter (fun nl => decide (nl.2.atType = "InputLayer"))).length = 1) ∧
    ((arch.filter (fun nl => decide ("InputLayer" ∈ nl.2.sink_layers))).length = 0) ∧
    ((arch.filter (fun nl => decide (nl.2.sink_layers = ∅))).length = 1) := by
  unfold validate_architecture
  cases h : dictGet arch "InputLayer" with
  | none =>
    simp [h, List.all_eq_true]
  | some r =>
    simp [h, List.all_eq_true, and_assoc]

/-! ### Canonical-order loop invariant

`canonLoop` builds the layer list from the output side toward the input:
the list stays duplicate-free, all its members are keys, and every member's
sink set is contained in the part of the list built before it. -/

def GoodAcc (arch : Arch) (acc : List String) : Prop :=
  acc.Nodup ∧ (∀ x ∈ acc, x ∈ archKeys arch) ∧
  ∀ i (hi : i < acc.length), sinksOf arch (acc.get ⟨i, hi⟩) ⊆ (acc.take i).toFinset

theorem goodAcc_nil (arch : Arch) : GoodAcc arch [] := by
  refine ⟨List.nodup_nil, by simp, ?_⟩
  intro i hi
  simp at hi

theorem mem_newLayers {arch : Arch} {acc : List String} {n : String} :
    n ∈ newLayers arch acc ↔
      n ∈ archKeys arch ∧ n ∉ acc ∧ sinksOf arch n ⊆ acc.toFinset := by
  simp only [newLayers, List.mem_filter, decide_eq_true_eq]
  tauto

theorem newLayers_nodup {arch : Arch} (hk : (archKeys arch).Nodup)
    (acc : List String) : (newLayers arch acc).Nodup :=
  ((hk.filter _).filter _)

theorem goodAcc_append {arch : Arch} {acc batch : List String}
    (hg : GoodAcc arch acc) (hbn : batch.Nodup)
    (hb : ∀ b ∈ batch, b ∈ archKeys arch ∧ b ∉ acc ∧ sinksOf arch b ⊆ acc.toFinset) :
    GoodAcc arch (acc ++ batch) := by
  obtain ⟨hnd, hmem, hpos⟩ := hg
  refine ⟨?_, ?_, ?_⟩
  · exact List.nodup_append.2 ⟨hnd, hbn, fun a ha hb' => (hb a hb').2.1 ha⟩
  · intro x hx
    rcases List.mem_append.1 hx with hx | hx
    · exact hmem x hx
    · exact (hb x hx).1
  · intro i hi
    by_cases hcase : i < acc.length
    · have hget : (acc ++ batch).get ⟨i, hi⟩ = acc.get ⟨i, hcase⟩ := by
        simp [List.getElem_append_left hcase]
      rw [hget]
      have htake : (acc ++ batch).take i = acc.take i := by
        rw [List.take_append_eq_append_take, Nat.sub_eq_zero_of_le (Nat.le_of_lt hcase)]
        simp
      rw [htake]
      exact hpos i hcase
    · push_neg at hcase
      have hj : i - acc.length < batch.length := by
        have := List.length_append acc batch ▸ hi
        omega
      have hget : (acc ++ batch).get ⟨i, hi⟩ = batch.get ⟨i - acc.length, hj⟩ := by
        simp [List.getElem_append_right hcase]
      rw [hget]
      have hsub : sinksOf arch (batch.get ⟨i - acc.length, hj⟩) ⊆ acc.toFinset :=
        (hb _ (List.get_mem batch _ hj)).2.2
      refine hsub.trans ?_
      intro x hx
      rw [List.mem_toFinset] at hx ⊢
      have htake : (acc ++ batch).take i = acc ++ batch.take (i - acc.length) := by
        rw [List.take_append_eq_append_take, List.take_of_length_le hcase]
      rw [htake]
      exact List.mem_append_left _ hx

theorem canonLoop_good {arch : Arch} (hk : (archKeys arch).Nodup) :
    ∀ (fuel : Nat) (acc : List String), GoodAcc arch acc →
      GoodAcc arch (canonLoop arch fuel acc) := by
  intro fuel
  induction fuel with
  | zero => intro acc hg; exact hg
  | succ n ih =>
    intro acc hg
    rw [canonLoop]
    by_cases hnew : newLayers arch acc = []
    · simp [hnew]
      exact hg
    · simp only [hnew, if_neg, ite_false]
      refine ih _ (goodAcc_append hg ?_ ?_)
      · exact ((List.perm_insertionSort _ _).symm.nodup (newLayers_nodup hk acc))
      · intro b hbmem
        have : b ∈ newLayers arch acc :=
          (List.perm_insertionSort _ _).subset hbmem
        exact mem_newLayers.1 this

theorem canonical_ok_elim {arch : Arch} {ord : List String}
    (h : get_canonical_layer_order arch = .ok ord) :
    ∃ acc, acc = canonLoop arch (archKeys arch).length [] ∧ ord = acc.reverse ∧
      ∀ x ∈ archKeys arch, x ∈ acc := by
  unfold get_canonical_layer_order at h
  set acc := canonLoop arch (archKeys arch).length [] with hacc
  by_cases hrem : (archKeys arch).toFinset \ acc.toFinset = ∅
  · refine ⟨acc, rfl, ?_, ?_⟩
    · simp [hrem] at h
      exact h.symm
    · intro x hx
      have := Finset.sdiff_eq_empty_iff_subset.1 hrem
      have hx' : x ∈ acc.toFinset := this (List.mem_toFinset.2 hx)
      exact List.mem_toFinset.1 hx'
  · simp [hrem] at h

theorem perm_of_nodup_of_mem_iff {l₁ l₂ : List String}
    (h₁ : l₁.Nodup) (h₂ : l₂.Nodup) (h : ∀ x, x ∈ l₁ ↔ x ∈ l₂) : l₁.Perm l₂ := by
  rw [List.perm_iff_count]
  intro a
  by_cases ha : a ∈ l₁
  · rw [List.count_eq_one_of_mem h₁ ha, List.count_eq_one_of_mem h₂ ((h a).1 ha)]
  · rw [List.count_eq_zero.2 ha, List.count_eq_zero.2 (fun hc => ha ((h a).2 hc))]

/-! ### Positions in the built order -/

theorem mem_take_of_subset_toFinset {acc : List String} {s : Finset String}
    {i : Nat} {b : String} (hsub : s ⊆ (acc.take i).toFinset) (hb : b ∈ s) :
    b ∈ acc.take i :=
  List.mem_toFinset.1 (hsub hb)

/-- If `a` sits at a position of `acc` and `b` occurs before that position,
then in the reversed list `b` occurs strictly after `a`. -/
theorem reverse_split_of_before {acc : List String} {a b : String} {p : Nat}
    (hp : p < acc.length) (hget : acc.get ⟨p, hp⟩ = a) (hb : b ∈ acc.take p) :
    ∃ l₁ l₂, acc.reverse = l₁ ++ a :: l₂ ∧ b ∈ l₂ := by
  have hdecomp : acc = acc.take p ++ a :: acc.drop (p + 1) := by
    conv_lhs => rw [← List.take_append_drop p acc]
    congr 1
    rw [← List.getElem_cons_drop acc p hp]
    simp [← hget]
  refine ⟨(acc.drop (p + 1)).reverse, (acc.take p).reverse, ?_, ?_⟩
  · conv_lhs => rw [hdecomp]
    rw [List.reverse_append, List.reverse_cons, List.append_assoc]
    simp
  · simpa using hb

/-- Every sink of an ordered layer appears strictly after it in the
reversed (input-to-output) order. -/
theorem edge_split {arch : Arch} {acc : List String} {a b : String}
    (hg : GoodAcc arch acc) (ha : a ∈ acc) (hb : b ∈ sinksOf arch a) :
    ∃ l₁ l₂, acc.reverse = l₁ ++ a :: l₂ ∧ b ∈ l₂ := by
  obtain ⟨⟨p, hp⟩, hget⟩ := List.mem_iff_get.1 ha
  have hsink := hg.2.2 p hp
  rw [hget] at hsink
  exact reverse_split_of_before hp hget (mem_take_of_subset_toFinset hsink hb)

theorem indexOf_lt_of_mem_take {l : List String} {x : String} :
    ∀ {n : Nat}, x ∈ l.take n → l.indexOf x < n := by
  induction l with
  | nil => intro n h; simp at h
  | cons hd tl ih =>
    intro n h
    cases n with
    | zero => simp at h
    | succ m =>
      by_cases hx : hd = x
      · subst hx
        simp [List.indexOf_cons_self]
      · simp only [List.take_succ_cons, List.mem_cons] at h
        rcases h with h | h
        · exact absurd h.symm hx
        · rw [List.indexOf_cons_ne _ hx]
          exact Nat.succ_lt_succ (ih h)

/-- Following one sink edge strictly decreases the position in `acc`
(positions in `acc` run from the output side toward the input side). -/
theorem edge_indexOf_lt {arch : Arch} {acc : List String} {a b : String}
    (hg : GoodAcc arch acc) (ha : a ∈ acc) (hb : b ∈ sinksOf arch a) :
    b ∈ acc ∧ acc.indexOf b < acc.indexOf a := by
  have hlt : acc.indexOf a < acc.length := List.indexOf_lt_length.2 ha
  have hget : acc.get ⟨acc.indexOf a, hlt⟩ = a := List.indexOf_get hlt
  have hsink := hg.2.2 (acc.indexOf a) hlt
  rw [hget] at hsink
  have htake : b ∈ acc.take (acc.indexOf a) :=
    mem_take_of_subset_toFinset hsink hb
  exact ⟨List.take_subset _ _ htake, indexOf_lt_of_mem_take htake⟩

/-- The sink-edge relation of an architecture description. -/
def hasEdge (arch : Arch) (a b : String) : Prop := b ∈ sinksOf arch a

/-- Reachability along sink edges. -/
def Reaches (arch : Arch) : String → String → Prop :=
  Relation.ReflTransGen (hasEdge arch)

/-- Reachability strictly decreases positions in `acc` (except at its
start point). -/
theorem reaches_indexOf_lt {arch : Arch} {acc : List String} {a x : String}
    (hg : GoodAcc arch acc) (hr : Reaches arch a x) (ha : a ∈ acc) :
    x ∈ acc ∧ (x = a ∨ acc.indexOf x < acc.indexOf a) := by
  induction hr with
  | refl => exact ⟨ha, Or.inl rfl⟩
  | tail hab hbc ih =>
    obtain ⟨hbmem, hbpos⟩ := ih
    obtain ⟨hcmem, hcpos⟩ := edge_indexOf_lt hg hbmem hbc
    refine ⟨hcmem, Or.inr ?_⟩
    rcases hbpos with rfl | hlt
    · exact hcpos
    · exact hcpos.trans hlt

/-! ### Facts extracted from a passing validation -/

theorem inputLayer_mem_keys {arch : Arch}
    (hv : validate_architecture arch = true) : "InputLayer" ∈ archKeys arch := by
  obtain ⟨r, hr, -⟩ := ((validate_true_iff arch).1 hv).2.2.2.1
  exact mem_archKeys_of_mem (dictGet_mem hr)

theorem sinkless_unique {arch : Arch}
    (hv : validate_architecture arch = true) :
    ∀ k₁ ∈ archKeys arch, ∀ k₂ ∈ archKeys arch,
      sinksOf arch k₁ = ∅ → sinksOf arch k₂ = ∅ → k₁ = k₂ := by
  have hcount := ((validate_true_iff arch).1 hv).2.2.2.2.2.2
  obtain ⟨e, he⟩ := List.length_eq_one.1 hcount
  intro k₁ h₁ k₂ h₂ hs₁ hs₂
  obtain ⟨r₁, hr₁⟩ := dictGet_isSome_of_mem h₁
  obtain ⟨r₂, hr₂⟩ := dictGet_isSome_of_mem h₂
  rw [sinksOf_eq_some hr₁] at hs₁
  rw [sinksOf_eq_some hr₂] at hs₂
  have hm₁ : (k₁, r₁) ∈ arch.filter (fun nl => decide (nl.2.sink_layers = ∅)) :=
    List.mem_filter.2 ⟨dictGet_mem hr₁, by simp [hs₁]⟩
  have hm₂ : (k₂, r₂) ∈ arch.filter (fun nl => decide (nl.2.sink_layers = ∅)) :=
    List.mem_filter.2 ⟨dictGet_mem hr₂, by simp [hs₂]⟩
  rw [he] at hm₁ hm₂
  simp only [List.mem_singleton] at hm₁ hm₂
  exact congrArg Prod.fst (hm₁.trans hm₂.symm)

theorem no_input_sinks {arch : Arch}
    (hv : validate_architecture arch = true) :
    ∀ nl ∈ arch, "InputLayer" ∉ nl.2.sink_layers := by
  have hcount := ((validate_true_iff arch).1 hv).2.2.2.2.2.1
  have := List.length_eq_zero.1 hcount
  have h := List.filter_eq_nil_iff.1 this
  intro nl hnl hmem
  exact h nl hnl (by simpa using hmem)

/-! ### Properties of a successful canonical ordering -/

theorem canonical_goodAcc {arch : Arch} {ord : List String}
    (hk : (archKeys arch).Nodup)
    (hok : get_canonical_layer_order arch = .ok ord) :
    ∃ acc, ord = acc.reverse ∧ GoodAcc arch acc ∧ ∀ x ∈ archKeys arch, x ∈ acc := by
  obtain ⟨acc, hacc, hord, hcover⟩ := canonical_ok_elim hok
  refine ⟨acc, hord, ?_, hcover⟩
  rw [hacc]
  exact canonLoop_good hk _ [] (goodAcc_nil arch)

theorem canonical_perm_keys {arch : Arch} {ord : List String}
    (hk : (archKeys arch).Nodup)
    (hok : get_canonical_layer_order arch = .ok ord) :
    ord.Perm (archKeys arch) := by
  obtain ⟨acc, hord, hg, hcover⟩ := canonical_goodAcc hk hok
  have hperm : acc.Perm (archKeys arch) :=
    perm_of_nodup_of_mem_iff hg.1 hk (fun x => ⟨hg.2.1 x, hcover x⟩)
  rw [hord]
  exact (List.reverse_perm acc).trans hperm

theorem canonical_sinkless_last {arch : Arch} {ord : List String} {t : String}
    (hk : (archKeys arch).Nodup) (hv : validate_architecture arch = true)
    (hok : get_canonical_layer_order arch = .ok ord)
    (ht : t ∈ archKeys arch) (hts : sinksOf arch t = ∅) :
    ord.getLast? = some t := by
  obtain ⟨acc, hord, hg, hcover⟩ := canonical_goodAcc hk hok
  have htacc : t ∈ acc := hcover t ht
  cases acc with
  | nil => simp at htacc
  | cons hd tl =>
    have h0 : 0 < (hd :: tl).length := by simp
    have hsink := hg.2.2 0 h0
    simp only [List.take_zero, List.toFinset_nil] at hsink
    have hdsink : sinksOf arch hd = ∅ := Finset.subset_empty.1 hsink
    have hdkeys : hd ∈ archKeys arch := hg.2.1 hd (List.mem_cons_self _ _)
    have heq : t = hd := sinkless_unique hv t ht hd hdkeys hts hdsink
    rw [hord, List.getLast?_reverse, heq]
    rfl

theorem nodup_indexOf_get {acc : List String} (hnd : acc.Nodup) {i : Nat}
    (hi : i < acc.length) : acc.indexOf (acc.get ⟨i, hi⟩) = i := by
  have hmem : acc.get ⟨i, hi⟩ ∈ acc := List.get_mem acc _ hi
  have hlt : acc.indexOf (acc.get ⟨i, hi⟩) < acc.length :=
    List.indexOf_lt_length.2 hmem
  have hget : acc.get ⟨acc.indexOf (acc.get ⟨i, hi⟩), hlt⟩ = acc.get ⟨i, hi⟩ :=
    List.indexOf_get hlt
  exact congrArg Fin.val (hnd.get_inj_iff.1 hget)

theorem canonical_input_first {arch : Arch} {ord : List String}
    (hk : (archKeys arch).Nodup) (hv : validate_architecture arch = true)
    (hok : get_canonical_layer_order arch = .ok ord)
    (hreach : ∀ x ∈ archKeys arch, x ≠ "InputLayer" → Reaches arch "InputLayer" x) :
    ord.head? = some "InputLayer" := by
  obtain ⟨acc, hord, hg, hcover⟩ := canonical_goodAcc hk hok
  have hin : "InputLayer" ∈ acc := hcover _ (inputLayer_mem_keys hv)
  have hpos : 0 < acc.length := List.length_pos.2 (List.ne_nil_of_mem hin)
  have hlast : acc.length - 1 < acc.length := by omega
  have hyinput : acc.get ⟨acc.length - 1, hlast⟩ = "InputLayer" := by
    by_contra hne
    have hymem : acc.get ⟨acc.length - 1, hlast⟩ ∈ acc := List.get_mem acc _ hlast
    have hykeys := hg.2.1 _ hymem
    obtain ⟨-, hcases⟩ := reaches_indexOf_lt hg (hreach _ hykeys hne) hin
    rcases hcases with heq | hlt
    · exact hne heq
    · have hidxy := nodup_indexOf_get hg.1 hlast
      have hinlt : acc.indexOf "InputLayer" < acc.length :=
        List.indexOf_lt_length.2 hin
      omega
  rw [hord, List.head?_reverse, List.getLast?_eq_getElem?,
      List.getElem?_eq_getElem hlast]
  exact congrArg some hyinput

/-! ### Closed form of the reverse-edge pass -/

theorem foldl_appendSourceStep (L : List (String × ExtLayerRecord)) :
    ∀ ext : List (String × ExtLayerRecord),
      L.foldl appendSourceStep ext = ext.map (fun tr => (tr.1,
        { tr.2 with source_layers := tr.2.source_layers ++
            (L.filter (fun nl => decide (tr.1 ∈ nl.2.sink_layers))).map Prod.fst })) := by
  induction L with
  | nil =>
    intro ext
    have hfun : ∀ tr ∈ ext,
        (tr.1, { tr.2 with source_layers := tr.2.source_layers ++
          (([] : List (String × ExtLayerRecord)).filter
            (fun nl => decide (tr.1 ∈ nl.2.sink_layers))).map Prod.fst }) =
          (fun tr => tr) tr := by
      intro tr htr
      simp
    rw [List.foldl_nil, List.map_congr_left hfun, List.map_id']
  | cons nl L ih =>
    intro ext
    rw [List.foldl_cons, ih (appendSourceStep ext nl)]
    unfold appendSourceStep
    rw [List.map_map]
    refine List.map_congr_left ?_
    intro tr htr
    by_cases hmem : tr.1 ∈ nl.2.sink_layers
    · simp only [Function.comp_apply, if_pos hmem, List.filter_cons, hmem,
        decide_true_eq_true, List.map_cons, if_true]
      simp [List.append_assoc]
    · simp only [Function.comp_apply, if_neg hmem, List.filter_cons, hmem,
        decide_false_eq_false, if_false]
      simp

theorem addSourceLayers_base (arch : Arch) (ord : List String) :
    addSourceLayers (ord.map (fun name =>
        (name, mkExtRecord ((dictGet arch name).getD default)))) =
    ord.map (fun n =>
      (n, { mkExtRecord ((dictGet arch n).getD default) with
            source_layers := ord.filter (fun y => decide (n ∈ sinksOf arch y)) })) := by
  unfold addSourceLayers
  rw [foldl_appendSourceStep, List.map_map]
  refine List.map_congr_left ?_
  intro n hn
  simp only [Function.comp_apply]
  have hfil : (((ord.map (fun name =>
        (name, mkExtRecord ((dictGet arch name).getD default)))).filter
          (fun nl => decide (n ∈ nl.2.sink_layers))).map Prod.fst)
      = ord.filter (fun y => decide (n ∈ sinksOf arch y)) := by
    rw [List.filter_map, List.map_map]
    have hid : (Prod.fst ∘ fun name =>
        (name, mkExtRecord ((dictGet arch name).getD default))) = fun y => y := rfl
    rw [hid, List.map_id']
    refine List.filter_congr ?_
    intro y hy
    simp only [Function.comp_apply]
    rw [sinksOf_eq_getD arch y]
    rfl
  rw [hfil]
  rfl

/-- The full characterization of a successful `get_extended_architecture`:
validation passed, the canonical order was computed, the result lists the
layers in canonical order, and each layer's `source_layers` is the list of
canonical-order layers that name it as a sink. -/
theorem get_extended_spec {arch : Arch} {ext : List (String × ExtLayerRecord)}
    (h : get_extended_architecture arch = some ext) :
    validate_architecture arch = true ∧
    ∃ ord, get_canonical_layer_order arch = .ok ord ∧
      ext = ord.map (fun n =>
        (n, { mkExtRecord ((dictGet arch n).getD default) with
              source_layers := ord.filter (fun y => decide (n ∈ sinksOf arch y)) })) := by
  unfold get_extended_architecture at h
  cases hv : validate_architecture arch with
  | false => rw [hv] at h; simp at h
  | true =>
    rw [hv] at h
    simp only [Bool.true_eq_false, if_false] at h
    cases hc : get_canonical_layer_order arch with
    | error e => rw [hc] at h; simp at h
    | ok ord =>
      rw [hc] at h
      simp only [Option.some.injEq] at h
      exact ⟨rfl, ord, rfl, h.symm.trans (addSourceLayers_base arch ord)⟩

/-! ### Independence of the canonical order from dict insertion order -/

theorem charListLe_total :
    ∀ x y : List Char, charListLe x y = true ∨ charListLe y x = true := by
  intro x
  induction x with
  | nil => intro y; exact Or.inl rfl
  | cons c cs ih =>
    intro y
    cases y with
    | nil => exact Or.inr rfl
    | cons d ds =>
      by_cases hcd : c = d
      · subst hcd
        rcases ih ds with h | h
        · refine Or.inl ?_
          rw [charListLe, if_pos rfl]
          exact h
        · refine Or.inr ?_
          rw [charListLe, if_pos rfl]
          exact h
      · rcases lt_or_gt_of_ne hcd with h | h
        · refine Or.inl ?_
          rw [charListLe, if_neg hcd]
          exact decide_eq_true h
        · refine Or.inr ?_
          rw [charListLe, if_neg (Ne.symm hcd)]
          exact decide_eq_true h

theorem charListLe_trans : ∀ x y z : List Char, charListLe x y = true →
    charListLe y z = true → charListLe x z = true := by
  intro x
  induction x with
  | nil => intro y z _ _; rfl
  | cons c cs ih =>
    intro y z h₁ h₂
    cases y with
    | nil => rw [charListLe] at h₁; cases h₁
    | cons d ds =>
      cases z with
      | nil => rw [charListLe] at h₂; cases h₂
      | cons e es =>
        rw [charListLe] at h₁ h₂ ⊢
        by_cases hcd : c = d
        · subst hcd
          rw [if_pos rfl] at h₁
          by_cases hde : c = e
          · subst hde
            rw [if_pos rfl] at h₂ ⊢
            exact ih ds es h₁ h₂
          · rw [if_neg hde] at h₂ ⊢
            exact h₂
        · rw [if_neg hcd] at h₁
          have hlt₁ : c < d := of_decide_eq_true h₁
          by_cases hde : d = e
          · subst hde
            rw [if_neg hcd]
            exact decide_eq_true hlt₁
          · rw [if_neg hde] at h₂
            have hlt₂ : d < e := of_decide_eq_true h₂
            have hce : c < e := lt_trans hlt₁ hlt₂
            rw [if_neg (ne_of_lt hce)]
            exact decide_eq_true hce

theorem charListLe_antisymm : ∀ x y : List Char, charListLe x y = true →
    charListLe y x = true → x = y := by
  intro x
  induction x with
  | nil =>
    intro y h₁ h₂
    cases y with
    | nil => rfl
    | cons d ds => rw [charListLe] at h₂; cases h₂
  | cons c cs ih =>
    intro y h₁ h₂
    cases y with
    | nil => rw [charListLe] at h₁; cases h₁
    | cons d ds =>
      rw [charListLe] at h₁ h₂
      by_cases hcd : c = d
      · subst hcd
        rw [if_pos rfl] at h₁ h₂
        rw [ih ds h₁ h₂]
      · rw [if_neg hcd] at h₁
        rw [if_neg (Ne.symm hcd)] at h₂
        exact absurd (of_decide_eq_true h₂) (lt_asymm (of_decide_eq_true h₁))

theorem string_eq_of_data {a b : String} (h : a.data = b.data) : a = b := by
  cases a
  cases b
  exact congrArg String.mk h

instance : IsTotal String (fun a b => strLe b a = true) :=
  ⟨fun a b => charListLe_total b.data a.data⟩

instance : IsTrans String (fun a b => strLe b a = true) :=
  ⟨fun _ _ _ h₁ h₂ => charListLe_trans _ _ _ h₂ h₁⟩

instance : IsAntisymm String (fun a b => strLe b a = true) :=
  ⟨fun a b h₁ h₂ =>
    (string_eq_of_data (charListLe_antisymm b.data a.data h₁ h₂)).symm⟩

theorem sortDesc_eq_of_perm {l₁ l₂ : List String} (h : l₁.Perm l₂) :
    List.insertionSort (fun a b => strLe b a = true) l₁ =
    List.insertionSort (fun a b => strLe b a = true) l₂ := by
  refine List.eq_of_perm_of_sorted (r := fun a b => strLe b a = true) ?_ ?_ ?_
  · exact (List.perm_insertionSort _ l₁).trans
      (h.trans (List.perm_insertionSort _ l₂).symm)
  · exact List.sorted_insertionSort _ l₁
  · exact List.sorted_insertionSort _ l₂

theorem dictGet_eq_of_perm {a₁ a₂ : Arch} (hk₁ : (archKeys a₁).Nodup)
    (hp : a₁.Perm a₂) : ∀ n, dictGet a₁ n = dictGet a₂ n := by
  have hk₂ : (archKeys a₂).Nodup := (hp.map Prod.fst).nodup hk₁
  intro n
  cases hv : dictGet a₁ n with
  | some r => exact (mem_dictGet hk₂ (hp.subset (dictGet_mem hv))).symm
  | none =>
    have hn : n ∉ archKeys a₂ := by
      intro hmem
      exact dictGet_eq_none.1 hv
        ((hp.symm.map Prod.fst).subset hmem)
    exact (dictGet_eq_none.2 hn).symm

theorem sinksOf_eq_of_perm {a₁ a₂ : Arch} (hk₁ : (archKeys a₁).Nodup)
    (hp : a₁.Perm a₂) : sinksOf a₁ = sinksOf a₂ := by
  funext n
  unfold sinksOf
  rw [dictGet_eq_of_perm hk₁ hp n]

theorem newLayers_perm {a₁ a₂ : Arch} (hk₁ : (archKeys a₁).Nodup)
    (hp : a₁.Perm a₂) (acc : List String) :
    (newLayers a₁ acc).Perm (newLayers a₂ acc) := by
  unfold newLayers
  rw [sinksOf_eq_of_perm hk₁ hp]
  exact ((hp.map Prod.fst).filter _).filter _

theorem canonLoop_congr {a₁ a₂ : Arch} (hk₁ : (archKeys a₁).Nodup)
    (hp : a₁.Perm a₂) :
    ∀ (fuel : Nat) (acc : List String),
      canonLoop a₁ fuel acc = canonLoop a₂ fuel acc := by
  intro fuel
  induction fuel with
  | zero => intro acc; rfl
  | succ n ih =>
    intro acc
    rw [canonLoop, canonLoop]
    have hnl := newLayers_perm hk₁ hp acc
    by_cases hnil : newLayers a₁ acc = []
    · have hnil₂ : newLayers a₂ acc = [] := by
        rw [hnil] at hnl
        exact hnl.symm.eq_nil
      simp [hnil, hnil₂]
    · have hnil₂ : newLayers a₂ acc ≠ [] := by
        intro hc
        rw [hc] at hnl
        exact hnil hnl.eq_nil
      simp only [hnil, hnil₂, if_false, ite_false]
      rw [sortDesc_eq_of_perm hnl, ih]

/-- Two descriptions that are equal as unordered mappings (the association
lists are permutations of each other) get the identical canonical order. -/
theorem canonical_order_of_perm {a₁ a₂ : Arch} (hk₁ : (archKeys a₁).Nodup)
    (hp : a₁.Perm a₂) :
    get_canonical_layer_order a₁ = get_canonical_layer_order a₂ := by
  unfold get_canonical_layer_order
  have hkeys : (archKeys a₁).Perm (archKeys a₂) := hp.map Prod.fst
  have hlen : (archKeys a₁).length = (archKeys a₂).length := hkeys.length_eq
  have hfin : (archKeys a₁).toFinset = (archKeys a₂).toFinset := by
    ext x
    simp only [List.mem_toFinset]
    exact hkeys.mem_iff
  rw [← hlen, ← hfin, canonLoop_congr hk₁ hp]

/-! ### Sources precede their targets in the canonical order -/

theorem indexOf_append_cons :
    ∀ (d : List String) (t : List String) (x : String),
      (d ++ x :: t).Nodup → (d ++ x :: t).indexOf x = d.length := by
  intro d
  induction d with
  | nil => intro t x _; simp [List.indexOf_cons_self]
  | cons hd d' ih =>
    intro t x hnd
    have hnd' : (hd :: (d' ++ x :: t)).Nodup := by simpa using hnd
    have hmem : x ∈ d' ++ x :: t :=
      List.mem_append_right _ (List.mem_cons_self _ _)
    have hne : hd ≠ x := by
      intro heq
      exact (List.nodup_cons.1 hnd').1 (heq ▸ hmem)
    rw [List.cons_append, List.indexOf_cons_ne _ hne,
        ih t x (List.nodup_cons.1 hnd').2]
    rfl

/-- In a duplicate-free list split both as `d ++ x :: t` and as
`m₁ ++ y :: m₂` with `x` occurring after `y`, the element `y` lies in the
prefix `d`. -/
theorem split_before {ord d t m₁ m₂ : List String} {x y : String}
    (hnd : ord.Nodup) (h₁ : ord = d ++ x :: t) (h₂ : ord = m₁ ++ y :: m₂)
    (hx : x ∈ m₂) : y ∈ d := by
  obtain ⟨u, v, huv⟩ := List.append_of_mem hx
  have h₃ : ord = (m₁ ++ y :: u) ++ x :: v := by
    rw [h₂, huv]
    simp
  have e₁ : ord.indexOf x = d.length := by
    rw [h₁]
    exact indexOf_append_cons d t x (h₁ ▸ hnd)
  have e₂ : ord.indexOf x = (m₁ ++ y :: u).length := by
    rw [h₃]
    exact indexOf_append_cons _ v x (h₃ ▸ hnd)
  have hlen : m₁.length < d.length := by
    rw [e₁] at e₂
    simp only [List.length_append, List.length_cons] at e₂
    omega
  have hd : d = ord.take d.length := by
    rw [h₁, List.take_left]
  rw [hd, h₂, List.take_append_eq_append_take]
  refine List.mem_append_right _ ?_
  cases hdiff : d.length - m₁.length with
  | zero => omega
  | succ k =>
    rw [List.take_succ_cons]
    exact List.mem_cons_self _ _

/-- In the closed form of the extended architecture, every name in a
layer's `source_layers` appears strictly before that layer. -/
theorem sources_before {arch : Arch} {ord : List String}
    {ext d t : List (String × ExtLayerRecord)} {p : String × ExtLayerRecord}
    (hk : (archKeys arch).Nodup)
    (hok : get_canonical_layer_order arch = .ok ord)
    (hshape : ext = ord.map (fun n =>
      (n, { mkExtRecord ((dictGet arch n).getD default) with
            source_layers := ord.filter (fun y => decide (n ∈ sinksOf arch y)) })))
    (hsplit : ext = d ++ p :: t) :
    ∀ s ∈ p.2.source_layers, s ∈ d.map Prod.fst := by
  obtain ⟨acc, hord, hg, hcover⟩ := canonical_goodAcc hk hok
  have hordnd : ord.Nodup := by
    rw [hord]
    exact List.nodup_reverse.2 hg.1
  have hpmem : p ∈ ext := by
    rw [hsplit]
    exact List.mem_append_right _ (List.mem_cons_self _ _)
  obtain ⟨n, hn, hpe⟩ := List.mem_map.1 (hshape ▸ hpmem)
  have hfst : ext.map Prod.fst = ord := by
    rw [hshape, List.map_map]
    exact List.map_id' ord
  have hsplit' : ord = d.map Prod.fst ++ p.1 :: t.map Prod.fst := by
    rw [← hfst, hsplit]
    simp
  intro s hs
  have hsrc : p.2.source_layers =
      ord.filter (fun y => decide (p.1 ∈ sinksOf arch y)) := by
    rw [← hpe]
  rw [hsrc] at hs
  have hsmem : s ∈ ord := List.mem_of_mem_filter hs
  have hedge : p.1 ∈ sinksOf arch s := by
    have := List.of_mem_filter hs
    simpa using this
  have hsacc : s ∈ acc := by
    rw [hord] at hsmem
    exact List.mem_reverse.1 hsmem
  obtain ⟨m₁, m₂, hm, hxm⟩ := edge_split hg hsacc hedge
  rw [← hord] at hm
  exact split_before hordnd hsplit' hm hxm

/-! ### The instantiation loop -/

/-- The sum of `out_size` over a list of source names, looked up in an
instantiated-layers mapping (`0` for absent names; the development only
evaluates it when all names are present). -/
def sumOut {α : Type} (out_size : α → Nat) (layers : List (String × α))
    (srcs : List String) : Nat :=
  (srcs.map (fun s => ((dictGet layers s).map out_size).getD 0)).sum

theorem sumSourceSizes_some {α : Type} (out_size : α → Nat)
    (layers : List (String × α)) :
    ∀ srcs, (∀ s ∈ srcs, s ∈ layers.map Prod.fst) →
      sumSourceSizes out_size layers srcs =
        some (sumOut out_size layers srcs) := by
  intro srcs
  induction srcs with
  | nil => intro _; rfl
  | cons s rest ih =>
    intro h
    obtain ⟨v, hv⟩ := dictGet_isSome_of_mem (h s (List.mem_cons_self _ _))
    rw [sumSourceSizes, hv, ih (fun x hx => h x (List.mem_cons_of_mem _ hx))]
    simp [sumOut, hv]

theorem sumOut_congr {α : Type} (out_size : α → Nat)
    {layers₁ layers₂ : List (String × α)} {srcs : List String}
    (h : ∀ s ∈ srcs, dictGet layers₁ s = dictGet layers₂ s) :
    sumOut out_size layers₁ srcs = sumOut out_size layers₂ srcs := by
  unfold sumOut
  congr 1
  refine List.map_congr_left ?_
  intro s hs
  rw [h s hs]

theorem instLoop_spec {α : Type}
    (layerClass : String → Option Int → Nat → List (String × ConfigValue) → α)
    (out_size : α → Nat) :
    ∀ (todo : List (String × ExtLayerRecord)) (layers : List (String × α)),
      ((layers.map Prod.fst ++ todo.map Prod.fst).Nodup) →
      (∀ d p t, todo = d ++ p :: t →
        ∀ s ∈ p.2.source_layers, s ∈ layers.map Prod.fst ++ d.map Prod.fst) →
      ∃ res, instLoop layerClass out_size todo layers = some res ∧
        res.map Prod.fst = layers.map Prod.fst ++ todo.map Prod.fst ∧
        (∀ k ∈ layers.map Prod.fst, dictGet res k = dictGet layers k) ∧
        (∀ p ∈ todo, dictGet res p.1 = some (layerClass p.2.atType p.2.size
          (sumOut out_size res p.2.source_layers) p.2.kwargs)) := by
  intro todo
  induction todo with
  | nil =>
    intro layers hnd hsrc
    exact ⟨layers, rfl, by simp, fun k _ => rfl, by simp⟩
  | cons q rest ih =>
    intro layers hnd hsrc
    obtain ⟨name, l⟩ := q
    have hsrc0 : ∀ s ∈ l.source_layers, s ∈ layers.map Prod.fst := by
      intro s hs
      have := hsrc [] (name, l) rest rfl s hs
      simpa using this
    have hname : name ∉ layers.map Prod.fst := by
      intro hc
      refine (List.nodup_append.1 hnd).2.2 hc ?_
      simp
    have hsum := sumSourceSizes_some out_size layers l.source_layers hsrc0
    have hnd' : (((layers ++ [(name, layerClass l.atType l.size
        (sumOut out_size layers l.source_layers) l.kwargs)]).map Prod.fst
          ++ rest.map Prod.fst)).Nodup := by
      simp only [List.map_append, List.map_cons, List.map_nil, List.append_assoc,
        List.singleton_append]
      simpa using hnd
    have hsrc' : ∀ d p t, rest = d ++ p :: t →
        ∀ s ∈ p.2.source_layers,
          s ∈ (layers ++ [(name, layerClass l.atType l.size
            (sumOut out_size layers l.source_layers) l.kwargs)]).map Prod.fst
              ++ d.map Prod.fst := by
      intro d p t hrest s hs
      have := hsrc ((name, l) :: d) p t (by rw [hrest, List.cons_append]) s hs
      simp only [List.map_append, List.map_cons, List.map_nil, List.mem_append,
        List.mem_cons, List.mem_singleton] at this ⊢
      tauto
    obtain ⟨res, hres, hmap, hstab, hall⟩ := ih _ hnd' hsrc'
    have hstabL : ∀ k ∈ layers.map Prod.fst, dictGet res k = dictGet layers k := by
      intro k hk
      have h1 : dictGet res k = dictGet (layers ++ [(name, layerClass l.atType l.size
          (sumOut out_size layers l.source_layers) l.kwargs)]) k := by
        refine hstab k ?_
        simp only [List.map_append, List.mem_append]
        exact Or.inl hk
      rw [h1, dictGet_append_left hk]
    refine ⟨res, ?_, ?_, hstabL, ?_⟩
    · rw [instLoop, hsum]
      exact hres
    · rw [hmap]
      simp
    · intro p hp
      rcases List.mem_cons.1 hp with rfl | hp'

      · have hmemname : name ∈ (layers ++ [(name, layerClass l.atType l.size
            (sumOut out_size layers l.source_layers) l.kwargs)]).map Prod.fst := by
          simp
        have h1 := hstab name hmemname
        have h2 : dictGet (layers ++ [(name, layerClass l.atType l.size
            (sumOut out_size layers l.source_layers) l.kwargs)]) name =
              some (layerClass l.atType l.size
                (sumOut out_size layers l.source_layers) l.kwargs) := by
          rw [dictGet_append_right hname]
          simp [dictGet]
        have hsums : sumOut out_size res l.source_layers =
            sumOut out_size layers l.source_layers := by
          refine sumOut_congr out_size ?_
          intro s hs
          exact hstabL s (hsrc0 s hs)
        rw [h1, h2, hsums]
      · exact hall p hp'

/-- The instantiation orchestrator on a successfully extended description:
it succeeds, produces one instance per layer in the same order, every
instance was constructed from its layer's type, declared size, kwargs and
the sum of its sources' output sizes, all sources are present, and the
input layer has no sources. -/
theorem instantiate_spec {α : Type}
    (layerClass : String → Option Int → Nat → List (String × ConfigValue) → α)
    (out_size : α → Nat) {arch : Arch} {ext : List (String × ExtLayerRecord)}
    (hk : (archKeys arch).Nodup)
    (hext : get_extended_architecture arch = some ext) :
    ∃ layers, instantiate_layers_from_architecture layerClass out_size arch =
        some layers ∧
      layers.map Prod.fst = ext.map Prod.fst ∧
      (∀ p ∈ ext, dictGet layers p.1 = some (layerClass p.2.atType p.2.size
        (sumOut out_size layers p.2.source_layers) p.2.kwargs)) ∧
      (∀ p ∈ ext, ∀ s ∈ p.2.source_layers, s ∈ layers.map Prod.fst) ∧
      (∀ p ∈ ext, p.1 = "InputLayer" → p.2.source_layers = []) := by
  obtain ⟨hv, ord, hok, hshape⟩ := get_extended_spec hext
  obtain ⟨acc, hord, hg, hcover⟩ := canonical_goodAcc hk hok
  have hordnd : ord.Nodup := by
    rw [hord]
    exact List.nodup_reverse.2 hg.1
  have hfst : ext.map Prod.fst = ord := by
    rw [hshape, List.map_map]
    exact List.map_id' ord
  have hsrcshape : ∀ p ∈ ext, p.2.source_layers =
      ord.filter (fun y => decide (p.1 ∈ sinksOf arch y)) := by
    intro p hp
    obtain ⟨n, hn, hpe⟩ := List.mem_map.1 (hshape ▸ hp)
    rw [← hpe]
  have hnd : (([] : List (String × α)).map Prod.fst ++ ext.map Prod.fst).Nodup := by
    rw [hfst]
    simpa using hordnd
  have hsrc : ∀ d p t, ext = d ++ p :: t →
      ∀ s ∈ p.2.source_layers,
        s ∈ ([] : List (String × α)).map Prod.fst ++ d.map Prod.fst := by
    intro d p t hsplit s hs
    simp only [List.map_nil, List.nil_append]
    exact sources_before hk hok hshape hsplit s hs
  obtain ⟨res, hres, hmap, -, hall⟩ := instLoop_spec layerClass out_size ext [] hnd hsrc
  refine ⟨res, ?_, ?_, hall, ?_, ?_⟩
  · rw [instantiate_layers_from_architecture, hext]
    exact hres
  · rw [hmap]
    simp
  · intro p hp s hs
    rw [hsrcshape p hp] at hs
    have : s ∈ ord := List.mem_of_mem_filter hs
    rw [hmap]
    simpa [hfst] using this
  · intro p hp hpin
    rw [hsrcshape p hp]
    rw [List.filter_eq_nil_iff]
    intro y hy
    simp only [decide_eq_true_eq]
    intro hcontra
    rw [hpin] at hcontra
    have hykeys : y ∈ archKeys arch := mem_keys_of_mem_sinksOf hcontra
    obtain ⟨r, hr⟩ := dictGet_isSome_of_mem hykeys
    rw [sinksOf_eq_some hr] at hcontra
    exact no_input_sinks hv (y, r) (dictGet_mem hr) hcontra

/-! ### The rejection conditions named by the specification -/

/-- The six rejection conditions listed by the spec for the validator,
stated in the spec's words: no record named `InputLayer` of type
`InputLayer`; two (or more) records typed `InputLayer`; some record's
`sink_layers` contains `InputLayer`; zero or two-or-more records with
empty `sink_layers`; a `sink_layers` entry that is not a key; a key
`default`. -/
def c3ListedRejects (arch : Arch) : Prop :=
  (∀ nl ∈ arch, ¬(nl.1 = "InputLayer" ∧ nl.2.atType = "InputLayer")) ∨
  2 ≤ (arch.filter (fun nl => decide (nl.2.atType = "InputLayer"))).length ∨
  (∃ nl ∈ arch, "InputLayer" ∈ nl.2.sink_layers) ∨
  (arch.filter (fun nl => decide (nl.2.sink_layers = ∅))).length ≠ 1 ∨
  (∃ nl ∈ arch, ∃ s ∈ nl.2.sink_layers, s ∉ archKeys arch) ∨
  ("default" ∈ archKeys arch)

instance (arch : Arch) : Decidable (c3ListedRejects arch) := by
  unfold c3ListedRejects
  infer_instance

/-- The rejection conditions of the source validator: the six listed by the
spec plus the `PYTHON_IDENTIFIER` name check the spec's list omits. -/
def c3AmendedRejects (arch : Arch) : Prop :=
  c3ListedRejects arch ∨ ∃ n ∈ archKeys arch, pythonIdentifier n = false

instance (arch : Arch) : Decidable (c3AmendedRejects arch) := by
  unfold c3AmendedRejects
  infer_instance

theorem validate_false_iff (arch : Arch) (hk : (archKeys arch).Nodup) :
    validate_architecture arch = false ↔ c3AmendedRejects arch := by
  rw [Bool.eq_false_iff, Ne, validate_true_iff]
  have hD : (∃ r, dictGet arch "InputLayer" = some r ∧ r.atType = "InputLayer") ↔
      ¬(∀ nl ∈ arch, ¬(nl.1 = "InputLayer" ∧ nl.2.atType = "InputLayer")) := by
    constructor
    · rintro ⟨r, hr, hty⟩ hall
      exact hall ("InputLayer", r) (dictGet_mem hr) ⟨rfl, hty⟩
    · intro hnall
      push_neg at hnall
      obtain ⟨nl, hnl, h1, h2⟩ := hnall
      obtain ⟨k, r⟩ := nl
      have h1' : k = "InputLayer" := h1
      subst h1'
      exact ⟨r, mem_dictGet hk hnl, h2⟩
  have hE0 : (arch.filter (fun nl => decide (nl.2.atType = "InputLayer"))).length = 0 →
      ∀ nl ∈ arch, ¬(nl.1 = "InputLayer" ∧ nl.2.atType = "InputLayer") := by
    intro h0 nl hnl hcl
    have hnil := List.length_eq_zero.1 h0
    have := List.filter_eq_nil_iff.1 hnil nl hnl
    simp only [decide_eq_true_eq] at this
    exact this hcl.2
  have hDE : (¬(∃ r, dictGet arch "InputLayer" = some r ∧ r.atType = "InputLayer") ∨
      ¬((arch.filter (fun nl => decide (nl.2.atType = "InputLayer"))).length = 1)) ↔
      ((∀ nl ∈ arch, ¬(nl.1 = "InputLayer" ∧ nl.2.atType = "InputLayer")) ∨
        2 ≤ (arch.filter (fun nl => decide (nl.2.atType = "InputLayer"))).length) := by
    constructor
    · rintro (h | h)
      · exact Or.inl (not_not.1 (fun hc => h (hD.2 hc)))
      · rcases Nat.lt_or_ge
          ((arch.filter (fun nl => decide (nl.2.atType = "InputLayer"))).length) 1 with
          hlt | hge
        · exact Or.inl (hE0 (by omega))
        · rcases Nat.eq_or_lt_of_le hge with heq | hgt
          · exact absurd heq.symm h
          · exact Or.inr hgt
    · rintro (h | h)
      · exact Or.inl (fun hc => (hD.1 hc) h)
      · exact Or.inr (by omega)
  have hnB : (¬∀ n ∈ archKeys arch, pythonIdentifier n = true) ↔
      (∃ n ∈ archKeys arch, pythonIdentifier n = false) := by
    constructor
    · intro h
      push_neg at h
      obtain ⟨n, hn, hp⟩ := h
      exact ⟨n, hn, by simpa using hp⟩
    · rintro ⟨n, hn, hp⟩ hall
      rw [hall n hn] at hp
      cases hp
  have hnC : (¬∀ nl ∈ arch, ∀ s ∈ nl.2.sink_layers, s ∈ archKeys arch) ↔
      (∃ nl ∈ arch, ∃ s ∈ nl.2.sink_layers, s ∉ archKeys arch) := by
    constructor
    · intro h
      push_neg at h
      exact h
    · intro h hall
      obtain ⟨nl, hnl, s, hs, hsk⟩ := h
      exact hsk (hall nl hnl s hs)
  have hnF : (¬(arch.filter (fun nl =>
      decide ("InputLayer" ∈ nl.2.sink_layers))).length = 0) ↔
      (∃ nl ∈ arch, "InputLayer" ∈ nl.2.sink_layers) := by
    constructor
    · intro h
      rcases hne : arch.filter (fun nl => decide ("InputLayer" ∈ nl.2.sink_layers)) with
        _ | ⟨nl, rest⟩
      · exact absurd (by rw [hne]; rfl) h
      · have hmem : nl ∈ arch.filter (fun nl => decide ("InputLayer" ∈ nl.2.sink_layers)) := by
          rw [hne]
          exact List.mem_cons_self _ _
        have := List.mem_filter.1 hmem
        exact ⟨nl, this.1, by simpa using this.2⟩
    · rintro ⟨nl, hnl, hsink⟩ h0
      have hnil := List.length_eq_zero.1 h0
      have := List.filter_eq_nil_iff.1 hnil nl hnl
      simp only [decide_eq_true_eq] at this
      exact this hsink
  unfold c3AmendedRejects c3ListedRejects
  constructor
  · intro h
    by_cases hA : "default" ∉ archKeys arch
    · by_cases hB : ∀ n ∈ archKeys arch, pythonIdentifier n = true
      · by_cases hC : ∀ nl ∈ arch, ∀ s ∈ nl.2.sink_layers, s ∈ archKeys arch
        · by_cases hG : (arch.filter (fun nl => decide (nl.2.sink_layers = ∅))).length = 1
          · by_cases hF : (arch.filter (fun nl =>
                decide ("InputLayer" ∈ nl.2.sink_layers))).length = 0
            · have hde : ¬(∃ r, dictGet arch "InputLayer" = some r ∧
                  r.atType = "InputLayer") ∨
                  ¬((arch.filter (fun nl =>
                    decide (nl.2.atType = "InputLayer"))).length = 1) := by
                by_contra hc
                push_neg at hc
                exact h ⟨hA, hB, hC, hc.1, hc.2, hF, hG⟩
              rcases hDE.1 hde with ha | hb
              · exact Or.inl (Or.inl ha)
              · exact Or.inl (Or.inr (Or.inl hb))
            · exact Or.inl (Or.inr (Or.inr (Or.inl (hnF.1 hF))))
          · exact Or.inl (Or.inr (Or.inr (Or.inr (Or.inl hG))))
        · exact Or.inl (Or.inr (Or.inr (Or.inr (Or.inr (Or.inl (hnC.1 hC))))))
      · exact Or.inr (hnB.1 hB)
    · exact Or.inl (Or.inr (Or.inr (Or.inr (Or.inr (Or.inr (not_not.1 hA))))))
  · intro h hall
    obtain ⟨hA, hB, hC, hD', hE', hF, hG⟩ := hall
    rcases h with (ha | hb | hc | hd | he | hf) | hg
    · exact (hD.1 ⟨hD'.choose, hD'.choose_spec.1, hD'.choose_spec.2⟩) ha
    · omega
    · exact hnF.2 hc hF
    · exact hd hG
    · exact hnC.2 he hC
    · exact hA hf
    · exact hnB.2 hg hB

/-! ### Concrete data for witnesses -/

/-- The extended architecture produced for `exampleChain`. -/
def extChain : List (String × ExtLayerRecord) :=
  [("InputLayer", { atType := "InputLayer", size := some 10, sink_layers := {"H"},
                    kwargs := [], source_layers := [] }),
   ("H", { atType := "FooLayer", size := some 5, sink_layers := {"Out"},
           kwargs := [], source_layers := ["InputLayer"] }),
   ("Out", { atType := "FooLayer", size := some 1, sink_layers := ∅,
             kwargs := [], source_layers := ["H"] })]

/-- `exampleChain` with a different dict insertion order (same unordered
mapping). -/
def exampleChainSwapped : Arch :=
  [("H", { atType := "FooLayer", size := some 5,
           sink_layers := {"Out"}, kwargs := [] }),
   ("InputLayer", { atType := "InputLayer", size := some 10,
                    sink_layers := {"H"}, kwargs := [] }),
   ("Out", { atType := "FooLayer", size := some 1,
             sink_layers := ∅, kwargs := [] })]

/-- A concrete instantiated-layer type that records the construction
arguments, playing the role of the external layer classes. -/
structure BuiltLayer where
  ty : String
  size : Option Int
  in_size : Nat
  kwargs : List (String × ConfigValue)
deriving DecidableEq, Inhabited

/-- A layer-class resolver that records its arguments. -/
def recordingClass (ty : String) (size : Option Int) (in_size : Nat)
    (kwargs : List (String × ConfigValue)) : BuiltLayer :=
  { ty := ty, size := size, in_size := in_size, kwargs := kwargs }

/-- `out_size` of a recorded layer: its declared size (the behavior of the
spec's example layers, where `out_size` equals the declared size). -/
def recordingOutSize (q : BuiltLayer) : Nat := (q.size.getD 0).toNat

/-! ### The claims -/

/-- Claim C1 (amended).  For every validator-accepted description with
distinct layer names, whenever `get_canonical_layer_order` returns an
order (it raises instead when some layers cannot be placed), that order is
a permutation of all layer names whose last element is the unique sinkless
layer; and `InputLayer` is at the first position whenever every other
layer is reachable from `InputLayer` along sink edges.  (The original
claim asserted the first-position property unconditionally; the validator
does not check connectivity, so it fails, see the counterexample.) -/
theorem claim1_canonical_order_shape {arch : Arch} {ord : List String}
    (hk : (archKeys arch).Nodup) (hv : validate_architecture arch = true)
    (hok : get_canonical_layer_order arch = .ok ord) :
    ord.Perm (archKeys arch) ∧
    (∀ t ∈ archKeys arch, sinksOf arch t = ∅ → ord.getLast? = some t) ∧
    ((∀ x ∈ archKeys arch, x ≠ "InputLayer" → Reaches arch "InputLayer" x) →
      ord.head? = some "InputLayer") :=
  ⟨canonical_perm_keys hk hok,
   fun t ht hts => canonical_sinkless_last hk hv hok ht hts,
   fun hreach => canonical_input_first hk hv hok hreach⟩

/-- Claim C1, counterexample to the claim as stated: `appleArch` is
accepted by the validator, `get_canonical_layer_order` succeeds, and the
first element of the returned order is `Apple`, not `InputLayer` (the
layer `Apple` is not reachable from the input and sorts before it). -/
theorem claim1_counterexample :
    validate_architecture appleArch = true ∧
    get_canonical_layer_order appleArch = .ok ["Apple", "InputLayer", "Out"] ∧
    (["Apple", "InputLayer", "Out"] : List String).head? ≠ some "InputLayer" := by
  decide

/-- Claim C1, witness: the amended theorem applied to the three-layer
example chain. -/
theorem claim1_witness :
    (archKeys exampleChain).Nodup ∧
    validate_architecture exampleChain = true ∧
    get_canonical_layer_order exampleChain = .ok ["InputLayer", "H", "Out"] ∧
    ((["InputLayer", "H", "Out"] : List String).Perm (archKeys exampleChain) ∧
     (∀ t ∈ archKeys exampleChain, sinksOf exampleChain t = ∅ →
       (["InputLayer", "H", "Out"] : List String).getLast? = some t) ∧
     ((∀ x ∈ archKeys exampleChain, x ≠ "InputLayer" →
         Reaches exampleChain "InputLayer" x) →
       (["InputLayer", "H", "Out"] : List String).head? = some "InputLayer")) :=
  ⟨by decide, by decide, by decide,
   claim1_canonical_order_shape (by decide) (by decide) (by decide)⟩

/-- Claim C2.  For every validator-accepted description with distinct
layer names, every layer `L`, and every `S` in `L`'s `sink_layers`: in the
sequence returned by `get_canonical_layer_order`, `S` appears strictly
after `L`. -/
theorem claim2_sink_after_source {arch : Arch} {ord : List String}
    {L S : String} (hk : (archKeys arch).Nodup)
    (_hv : validate_architecture arch = true)
    (hok : get_canonical_layer_order arch = .ok ord)
    (hL : L ∈ archKeys arch) (hS : S ∈ sinksOf arch L) :
    ∃ l₁ l₂, ord = l₁ ++ L :: l₂ ∧ S ∈ l₂ := by
  obtain ⟨acc, hord, hg, hcover⟩ := canonical_goodAcc hk hok
  obtain ⟨l₁, l₂, hsplit, hmem⟩ := edge_split hg (hcover L hL) hS
  exact ⟨l₁, l₂, by rw [hord, hsplit], hmem⟩

/-- Claim C2, witness: in the example chain, `H` (a sink of `InputLayer`)
appears strictly after `InputLayer`. -/
theorem claim2_witness :
    (archKeys exampleChain).Nodup ∧
    validate_architecture exampleChain = true ∧
    get_canonical_layer_order exampleChain = .ok ["InputLayer", "H", "Out"] ∧
    "InputLayer" ∈ archKeys exampleChain ∧
    "H" ∈ sinksOf exampleChain "InputLayer" ∧
    (∃ l₁ l₂, (["InputLayer", "H", "Out"] : List String) =
      l₁ ++ "InputLayer" :: l₂ ∧ "H" ∈ l₂) :=
  ⟨by decide, by decide, by decide, by decide, by decide,
   @claim2_sink_after_source exampleChain ["InputLayer", "H", "Out"]
     "InputLayer" "H" (by decide) (by decide) (by decide)
     (by decide) (by decide)⟩

/-- Claim C3 (amended).  For a description with distinct layer names,
`validate_architecture` raises exactly when one of the six conditions of
the claim holds or some layer name fails the `PYTHON_IDENTIFIER` pattern.
(The original claim listed only the six conditions and said the validator
otherwise returns without raising; the name-pattern check refutes that,
see the counterexample.) -/
theorem claim3_validate_rejects_iff (arch : Arch)
    (hk : (archKeys arch).Nodup) :
    validate_architecture arch = false ↔ c3AmendedRejects arch :=
  validate_false_iff arch hk

/-- Claim C3, counterexample to the claim as stated: `badNameArch`
satisfies none of the six listed rejection conditions, yet
`validate_architecture` raises (its layer `1bad` fails the identifier
check). -/
theorem claim3_counterexample :
    validate_architecture badNameArch = false ∧ ¬ c3ListedRejects badNameArch := by
  decide

/-- Claim C3, witness: the amended equivalence applied to the example
chain (which the validator accepts). -/
theorem claim3_witness :
    (archKeys exampleChain).Nodup ∧
    (validate_architecture exampleChain = false ↔ c3AmendedRejects exampleChain) :=
  ⟨by decide, claim3_validate_rejects_iff exampleChain (by decide)⟩

/-- Claim C4.  On every successfully extended description (with distinct
layer names), instantiation succeeds, produces one instance per layer in
the same order, constructs every instance by applying the resolved class
to the layer's declared size, `in_size`, and kwargs — where `in_size` is
the sum of `out_size` over the layer's source layers, all of which are
already instantiated — and `InputLayer` is constructed with `in_size`
zero. -/
theorem claim4_instantiation_in_sizes {α : Type}
    (layerClass : String → Option Int → Nat → List (String × ConfigValue) → α)
    (out_size : α → Nat) {arch : Arch} {ext : List (String × ExtLayerRecord)}
    (hk : (archKeys arch).Nodup)
    (hext : get_extended_architecture arch = some ext) :
    ∃ layers, instantiate_layers_from_architecture layerClass out_size arch =
        some layers ∧
      layers.map Prod.fst = ext.map Prod.fst ∧
      (∀ p ∈ ext, dictGet layers p.1 = some (layerClass p.2.atType p.2.size
        (sumOut out_size layers p.2.source_layers) p.2.kwargs)) ∧
      (∀ p ∈ ext, ∀ s ∈ p.2.source_layers, s ∈ layers.map Prod.fst) ∧
      (∀ p ∈ ext, p.1 = "InputLayer" →
        dictGet layers p.1 = some (layerClass p.2.atType p.2.size 0 p.2.kwargs)) := by
  obtain ⟨layers, h1, h2, h3, h4, h5⟩ := instantiate_spec layerClass out_size hk hext
  refine ⟨layers, h1, h2, h3, h4, ?_⟩
  intro p hp hpin
  have hzero := h3 p hp
  rw [h5 p hp hpin] at hzero
  simpa [sumOut] using hzero

/-- Claim C4, witness: instantiating the example chain with a recording
layer class whose `out_size` is the declared size.  `H` is constructed
with `in_size = 10` (the input layer's `out_size`) and `Out` with
`in_size = 5` (`H`'s `out_size`); `InputLayer` gets `in_size = 0`. -/
theorem claim4_witness :
    (archKeys exampleChain).Nodup ∧
    get_extended_architecture exampleChain = some extChain ∧
    instantiate_layers_from_architecture recordingClass recordingOutSize
        exampleChain =
      some [("InputLayer",
              { ty := "InputLayer", size := some 10, in_size := 0, kwargs := [] }),
            ("H", { ty := "FooLayer", size := some 5, in_size := 10, kwargs := [] }),
            ("Out", { ty := "FooLayer", size := some 1, in_size := 5, kwargs := [] })] ∧
    (∃ layers, instantiate_layers_from_architecture recordingClass recordingOutSize
        exampleChain = some layers ∧
      layers.map Prod.fst = extChain.map Prod.fst ∧
      (∀ p ∈ extChain, dictGet layers p.1 = some (recordingClass p.2.atType p.2.size
        (sumOut recordingOutSize layers p.2.source_layers) p.2.kwargs)) ∧
      (∀ p ∈ extChain, ∀ s ∈ p.2.source_layers, s ∈ layers.map Prod.fst) ∧
      (∀ p ∈ extChain, p.1 = "InputLayer" →
        dictGet layers p.1 =
          some (recordingClass p.2.atType p.2.size 0 p.2.kwargs))) :=
  ⟨by decide, by decide, by decide,
   claim4_instantiation_in_sizes recordingClass recordingOutSize
     (by decide) (by decide)⟩

/-- Claim C5.  After a successful `get_extended_architecture`, a layer's
`source_layers` contains a name `Y` exactly when the original
description's record for `Y` lists that layer among its `sink_layers`. -/
theorem claim5_source_sink_roundtrip {arch : Arch}
    {ext : List (String × ExtLayerRecord)}
    (hext : get_extended_architecture arch = some ext) :
    ∀ p ∈ ext, ∀ Y, Y ∈ p.2.source_layers ↔ p.1 ∈ sinksOf arch Y := by
  obtain ⟨hv, ord, hok, hshape⟩ := get_extended_spec hext
  obtain ⟨acc, -, hordacc, hcover⟩ := canonical_ok_elim hok
  intro p hp Y
  obtain ⟨n, hn, hpe⟩ := List.mem_map.1 (hshape ▸ hp)
  have hsrc : p.2.source_layers =
      ord.filter (fun y => decide (p.1 ∈ sinksOf arch y)) := by
    rw [← hpe]
  rw [hsrc]
  constructor
  · intro h
    have := List.of_mem_filter h
    simpa using this
  · intro h
    refine List.mem_filter.2 ⟨?_, by simpa using h⟩
    have hykeys : Y ∈ archKeys arch := mem_keys_of_mem_sinksOf h
    rw [hordacc]
    exact List.mem_reverse.2 (hcover Y hykeys)

/-- Claim C5, witness: the round trip on the extended example chain (for
instance `InputLayer ∈ H.source_layers` matches
`H ∈ InputLayer.sink_layers`). -/
theorem claim5_witness :
    get_extended_architecture exampleChain = some extChain ∧
    (∀ p ∈ extChain, ∀ Y,
      Y ∈ p.2.source_layers ↔ p.1 ∈ sinksOf exampleChain Y) :=
  ⟨by decide, claim5_source_sink_roundtrip (by decide)⟩

/-- Claim C6.  The canonical layer order depends only on the description
as an unordered mapping: two association lists with distinct keys that are
permutations of each other (same keys bound to the same records, in any
insertion order) produce identical results, including across repeated
runs (the function is pure). -/
theorem claim6_order_independence {a₁ a₂ : Arch}
    (hk : (archKeys a₁).Nodup) (hp : a₁.Perm a₂) :
    get_canonical_layer_order a₁ = get_canonical_layer_order a₂ :=
  canonical_order_of_perm hk hp

/-- Claim C6, witness: the example chain and its reordered presentation
get the identical canonical order. -/
theorem claim6_witness :
    (archKeys exampleChain).Nodup ∧
    exampleChain.Perm exampleChainSwapped ∧
    get_canonical_layer_order exampleChain =
      get_canonical_layer_order exampleChainSwapped :=
  ⟨by decide, by decide, claim6_order_independence (by decide) (by decide)⟩

/-- Claim C7.  A successful `get_extended_architecture` lists the layers
in exactly the canonical order, and each layer's `source_layers` is the
canonical order filtered to the layers that name it as a sink — its
predecessors, in the order they appear in the canonical order.  The
function is pure, so re-derivation from the same description yields the
same lists. -/
theorem claim7_extended_canonical_order {arch : Arch}
    {ext : List (String × ExtLayerRecord)}
    (hext : get_extended_architecture arch = some ext) :
    ∃ ord, get_canonical_layer_order arch = .ok ord ∧
      ext.map Prod.fst = ord ∧
      ∀ p ∈ ext, p.2.source_layers =
        ord.filter (fun y => decide (p.1 ∈ sinksOf arch y)) := by
  obtain ⟨hv, ord, hok, hshape⟩ := get_extended_spec hext
  refine ⟨ord, hok, ?_, ?_⟩
  · rw [hshape, List.map_map]
    exact List.map_id' ord
  · intro p hp
    obtain ⟨n, hn, hpe⟩ := List.mem_map.1 (hshape ▸ hp)
    rw [← hpe]

/-- Claim C7, witness: the extended example chain iterates as
`[InputLayer, H, Out]` with the source lists read off the canonical
order. -/
theorem claim7_witness :
    get_extended_architecture exampleChain = some extChain ∧
    (∃ ord, get_canonical_layer_order exampleChain = .ok ord ∧
      extChain.map Prod.fst = ord ∧
      ∀ p ∈ extChain, p.2.source_layers =
        ord.filter (fun y => decide (p.1 ∈ sinksOf exampleChain y))) :=
  ⟨by decide, claim7_extended_canonical_order (by decide)⟩

/-- Claim C8.  On the two-layer cycle `A → B, B → A` no layer can ever be
placed, `get_canonical_layer_order` fails, and the single failure value
carries the entire set of unplaced layer names — both `A` and `B`
together in one message. -/
theorem claim8_unreachable_reported_together :
    get_canonical_layer_order cycleArch = .error {"A", "B"} ∧
    "A" ∈ ({"A", "B"} : Finset String) ∧
    "B" ∈ ({"A", "B"} : Finset String) := by
  decide

/-- Claim C10.  The self-loop description is accepted by the validator
(`Loop` lists itself among its sinks), and `get_canonical_layer_order`
subsequently fails, reporting `Loop` among the unreachable layers. -/
theorem claim10_selfloop_validates_then_unreachable :
    validate_architecture selfLoopArch = true ∧
    "Loop" ∈ sinksOf selfLoopArch "Loop" ∧
    get_canonical_layer_order selfLoopArch = .error {"InputLayer", "Loop"} ∧
    "Loop" ∈ ({"InputLayer", "Loop"} : Finset String) := by
  decide

end Brainstorm
